import Mathlib

/-!
Verification development for the list-lines feature of the obsidian-outliner
repository (`src/features/LinesFeature.ts`).

The feature walks a parsed forest of list items over the visible part of a
document and produces, for each item with children, a vertical connector
descriptor (`LineData` in the source: top, left, height, source item).  A
click on a connector either zooms in or toggles folding of the item's
children.

The tree model (`List` in `src/root.ts`) and the editor bridge (`MyEditor`)
are external collaborators of the file under analysis; they are modelled
from the specification's data-model section: a list item carries its
content-start position, its first-line indent string and an emptiness flag;
parent/sibling navigation is encoded by index paths from the root list, and
fold state lives in the host editor keyed by the item's content-start line.
-/

namespace OutlinerLines

/-- A document position, as used by the editor bridge (`{line, ch}`). -/
structure DocPos where
  line : Nat
  ch : Nat
deriving DecidableEq

/-- Modelled from the spec: the per-item data of a `ListItem` node that the
lines feature reads (`getFirstLineContentStart`, `getFirstLineIndent`,
`isEmpty`).  `contentLine`/`contentCh` are the content-start position,
`indent` the literal leading whitespace of the first line, `empty` the
whitespace-only flag for the item's own text. -/
structure LItem where
  contentLine : Nat
  contentCh : Nat
  indent : List Char
  empty : Bool
deriving DecidableEq

/-- Modelled from the spec: the outline tree (`List` nodes with ordered
children).  Parent back-references are represented by index paths from the
root list (see `getAt`, `getNextSibling`). -/
inductive LTree where
  | node : LItem → List LTree → LTree

def LTree.info : LTree → LItem
  | .node i _ => i

def LTree.children : LTree → List LTree
  | .node _ cs => cs

mutual

/-- Decidable equality on trees, by simultaneous recursion with child lists. -/
def LTree.decEq : (a b : LTree) → Decidable (a = b)
  | .node i cs, .node j ds =>
    if hij : i = j then
      match LTree.decEqChildren cs ds with
      | isTrue h => isTrue (by rw [hij, h])
      | isFalse h => isFalse (fun hc => by injection hc; exact h (by assumption))
    else isFalse (fun hc => by injection hc; exact hij (by assumption))

def LTree.decEqChildren : (as bs : List LTree) → Decidable (as = bs)
  | [], [] => isTrue rfl
  | [], _ :: _ => isFalse (fun hc => List.noConfusion hc)
  | _ :: _, [] => isFalse (fun hc => List.noConfusion hc)
  | a :: as, b :: bs =>
    match LTree.decEq a b, LTree.decEqChildren as bs with
    | isTrue h1, isTrue h2 => isTrue (by rw [h1, h2])
    | isFalse h1, _ => isFalse (fun hc => by injection hc; exact h1 (by assumption))
    | _, isFalse h2 => isFalse (fun hc => by injection hc; exact h2 (by assumption))

end

instance : DecidableEq LTree := LTree.decEq

/-- Modelled from the spec: a root `List` returned by `parseRange`, as used
by `calculate`: its children (`getChildren()`) and the last document line it
covers (`getRange()[1].line`). -/
structure RootList where
  endLine : Nat
  children : List LTree

/-- The environment of one recomputation pass: document content, per-line
pixel heights of the host editor's line blocks, the guard inputs of
`calculate`, the visible ranges, the optional zoom range, the tab size and
the host fold state (keyed by content-start line).  All host-editor state is
modelled from the spec's external-interface section. -/
structure Env where
  doc : List (List Char)
  heights : Nat → Nat
  listLines : Bool
  isDefaultTheme : Bool
  viewportLineBlocksLen : Nat
  visibleRanges : List (Nat × Nat)
  zoomRange : Option (DocPos × DocPos)
  tabSize : Nat
  foldState : Nat → Bool

/-- Modelled from the spec: offset of the start of a document line
(each line contributes its length plus one newline). -/
def lineStartOffset (doc : List (List Char)) : Nat → Nat
  | 0 => 0
  | n + 1 =>
    match doc with
    | [] => 0
    | l :: rest => l.length + 1 + lineStartOffset rest n

/-- Modelled from the spec: `MyEditor.posToOffset`. -/
def posToOffset (doc : List (List Char)) (p : DocPos) : Nat :=
  lineStartOffset doc p.line + p.ch

/-- Modelled from the spec: the line containing a document offset
(offsets up to and including the line's end belong to the line). -/
def offsetToLine (doc : List (List Char)) (off : Nat) : Nat :=
  match doc with
  | [] => 0
  | l :: rest =>
    if off ≤ l.length then 0 else 1 + offsetToLine rest (off - (l.length + 1))

/-- Pixel top of a line block: stacked heights of the preceding lines. -/
def lineTop (h : Nat → Nat) : Nat → Nat
  | 0 => 0
  | n + 1 => lineTop h n + h n

/-- `view.lineBlockAt(off).top` as an integer pixel coordinate. -/
def blockTopAt (env : Env) (off : Nat) : Int :=
  (lineTop env.heights (offsetToLine env.doc off) : Int)

/-- `view.lineBlockAt(off).bottom` as an integer pixel coordinate. -/
def blockBottomAt (env : Env) (off : Nat) : Int :=
  (lineTop env.heights (offsetToLine env.doc off + 1) : Int)

/-- `this.view.visibleRanges[0].from`. -/
def visibleFrom0 (env : Env) : Nat := (env.visibleRanges.head?.getD (0, 0)).1

/-- `this.view.visibleRanges[this.view.visibleRanges.length - 1].to`. -/
def visibleToLast (env : Env) : Nat := (env.visibleRanges.getLast?.getD (0, 0)).2

/-- `visibleFrom` after intersecting with the zoom range
(`Math.max(visibleFrom, posToOffset(zoomRange.from))`). -/
def clippedFrom (env : Env) : Nat :=
  match env.zoomRange with
  | some z => max (visibleFrom0 env) (posToOffset env.doc z.1)
  | none => visibleFrom0 env

/-- `visibleTo` after intersecting with the zoom range
(`Math.min(visibleTo, posToOffset(zoomRange.to))`). -/
def clippedTo (env : Env) : Nat :=
  match env.zoomRange with
  | some z => min (visibleToLast env) (posToOffset env.doc z.2)
  | none => visibleToLast env

/-- Children of the node reached by following an index path from the root
list's children (`[]` is the root list itself). -/
def childrenAt (ts : List LTree) : List Nat → List LTree
  | [] => ts
  | i :: p =>
    match ts[i]? with
    | some t => childrenAt t.children p
    | none => []

/-- The node reached by a nonempty index path from the root list's children. -/
def getAt (ts : List LTree) : List Nat → Option LTree
  | [] => none
  | [i] => ts[i]?
  | i :: p =>
    match ts[i]? with
    | some t => getAt t.children p
    | none => none

/-- The ancestor walk of `getNextSibling`, over the reversed path (last index
first): ask the parent for the next sibling; if the node is the last child,
continue from the parent. -/
def nextSiblingUp (roots : List LTree) : List Nat → Option LTree
  | [] => none
  | i :: up =>
    match (childrenAt roots up.reverse)[i + 1]? with
    | some ns => some ns
    | none => nextSiblingUp roots up

/-- `getNextSibling` (source lines 120-132): walk up the parent chain until
some ancestor (the item itself included) has a following sibling; `none`
when the walk reaches the root list. -/
def getNextSibling (roots : List LTree) (p : List Nat) : Option LTree :=
  nextSiblingUp roots p.reverse

/-- `list.getParent().getNextSiblingOf(list)` (source line 186): the direct
following sibling within the item's own parent. -/
def directNextSibling (roots : List LTree) (p : List Nat) : Option LTree :=
  match p.reverse with
  | [] => none
  | i :: up => (childrenAt roots up.reverse)[i + 1]?

/-- The loop of `getIndentSize`: a tab counts as `tabSize` character units,
any other character as one. -/
def indentSpaces (tabSize : Nat) : List Char → Nat
  | [] => 0
  | c :: rest => (if c = '\t' then tabSize else 1) + indentSpaces tabSize rest

/-- The fixed per-character pixel width (`const spaceSize = 4.5`). -/
def spaceSize : ℚ := 4.5

/-- `getIndentSize` (source lines 201-216). -/
def getIndentSize (env : Env) (t : LTree) : ℚ :=
  (indentSpaces env.tabSize t.info.indent : ℚ) * spaceSize

/-- A connector descriptor (`LineData` in the source: top, left, height
expression, source item).  The height expression `calc(<height>px - 1em)` /
`calc(<height>px - 1.8em)` is represented by the pixel height together with
the `hasNextSibling` flag that selects the margin.  The source item is
identified by the subtree together with its index path; `fromOffset` and
`tillOffset` record the document interval the connector was computed from. -/
structure Desc where
  top : Int
  left : ℚ
  heightPx : Int
  hasNextSibling : Bool
  item : LTree
  path : List Nat
  fromOffset : Nat
  tillOffset : Nat
deriving DecidableEq

/-- The `top` computation of `recursive` (source lines 175-178): the fixed
overscan constant `-20` when the content start lies at or above a scrolled
visible start, the line block's top otherwise. -/
def connectorTop (env : Env) (fromOffset : Nat) : Int :=
  if 0 < clippedFrom env ∧ fromOffset ≤ clippedFrom env then -20
  else blockTopAt env fromOffset

/-- The `bottom` computation of `recursive` (source lines 179-182): clamped
to the block of the last visible offset when `tillOffset` exceeds it. -/
def connectorBottom (env : Env) (tillOffset : Nat) : Int :=
  if clippedTo env < tillOffset then blockBottomAt env (clippedTo env - 1)
  else blockBottomAt env tillOffset

/-- The body of `recursive` after the child loop (source lines 147-198):
compute the document interval, clip it against the zoom-restricted visible
range, skip the item when the interval misses the range or the clipped
height is non-positive or the item is folded, and otherwise emit one
descriptor. -/
def emitLine (env : Env) (roots : List LTree) (lastLine : Nat) (t : LTree)
    (p : List Nat) : List Desc :=
  let fromOffset := posToOffset env.doc ⟨t.info.contentLine, t.info.indent.length⟩
  let nextSibling := getNextSibling roots p
  let tillOffset := posToOffset env.doc
    ⟨match nextSibling with
     | some ns => ns.info.contentLine - 1
     | none => lastLine, 0⟩
  let visibleFrom := clippedFrom env
  let visibleTo := clippedTo env
  if fromOffset > visibleTo ∨ tillOffset < visibleFrom then []
  else
    let top := connectorTop env fromOffset
    let bottom := connectorBottom env tillOffset
    let height := bottom - top
    if 0 < height ∧ env.foldState t.info.contentLine = false then
      let hasNext :=
        match directNextSibling roots p with
        | some ns =>
          decide (posToOffset env.doc ⟨ns.info.contentLine, ns.info.contentCh⟩ ≤ visibleTo)
        | none => false
      [⟨top, getIndentSize env t, height, hasNext, t, p, fromOffset, tillOffset⟩]
    else []

mutual

/-- `recursive` (source lines 134-199): skip childless items, recurse into
every non-empty child first, then emit the item's own connector. -/
def recursive (env : Env) (roots : List LTree) (lastLine : Nat) :
    LTree → List Nat → List Desc
  | .node info children, p =>
    if children.length = 0 then []
    else
      recChildren env roots lastLine children p 0
        ++ emitLine env roots lastLine (.node info children) p

/-- The child loop of `recursive` (source lines 141-145), tracking each
child's index to extend the path. -/
def recChildren (env : Env) (roots : List LTree) (lastLine : Nat) :
    List LTree → List Nat → Nat → List Desc
  | [], _, _ => []
  | c :: rest, p, i =>
    (if c.info.empty = true then [] else recursive env roots lastLine c (p ++ [i]))
      ++ recChildren env roots lastLine rest p (i + 1)

end

/-- The top-level loop of `calculate` over one root list's children (source
lines 107-109); unlike the inner loop it recurses into empty children too. -/
def topGo (env : Env) (roots : List LTree) (lastLine : Nat) :
    List LTree → Nat → List Desc
  | [], _ => []
  | c :: rest, i =>
    recursive env roots lastLine c [i] ++ topGo env roots lastLine rest (i + 1)

/-- Processing of one root list in `calculate`: `lastLine` is the root's
range end, and the root's children are both the traversal roots and the
base of parent navigation. -/
def calcRoot (env : Env) (rl : RootList) : List Desc :=
  topGo env rl.children rl.endLine rl.children 0

/-- The sort relation of `calculate` (source lines 112-114): by `top`
ascending, ties broken by `left` ascending. -/
def descLe (a b : Desc) : Prop :=
  a.top < b.top ∨ (a.top = b.top ∧ a.left ≤ b.left)

instance : DecidableRel descLe := fun a b =>
  inferInstanceAs (Decidable (a.top < b.top ∨ (a.top = b.top ∧ a.left ≤ b.left)))

instance : IsTotal Desc descLe where
  total a b := by
    unfold descLe
    rcases lt_trichotomy a.top b.top with h | h | h
    · exact Or.inl (Or.inl h)
    · rcases le_total a.left b.left with h2 | h2
      · exact Or.inl (Or.inr ⟨h, h2⟩)
      · exact Or.inr (Or.inr ⟨h.symm, h2⟩)
    · exact Or.inr (Or.inl h)

instance : IsTrans Desc descLe where
  trans a b c hab hbc := by
    unfold descLe at *
    rcases hab with h1 | ⟨h1, h1l⟩ <;> rcases hbc with h2 | ⟨h2, h2l⟩
    · exact Or.inl (h1.trans h2)
    · exact Or.inl (h2 ▸ h1)
    · exact Or.inl (h1 ▸ h2)
    · exact Or.inr ⟨h1.trans h2, h1l.trans h2l⟩

/-- `calculate` (source lines 91-118): empty output unless the feature is
enabled, the default theme is active and there is a visible viewport;
otherwise process every parsed root list and sort the collected descriptors
by top, then left. -/
def calculate (env : Env) (lists : List RootList) : List Desc :=
  if env.listLines = true ∧ env.isDefaultTheme = true
      ∧ 0 < env.viewportLineBlocksLen ∧ 0 < env.visibleRanges.length then
    List.insertionSort descLe (lists.flatMap (fun rl => calcRoot env rl))
  else []

/-- `toggleFolding` (source lines 240-268) as a transformer of the host fold
state (a map from content-start line to folded flag): return unchanged when
the clicked item is empty; otherwise, if every direct non-empty child is
folded, unfold them all, else fold them all.  Empty children are skipped. -/
def toggleFolding (t : LTree) (f : Nat → Bool) : Nat → Bool :=
  if t.info.empty = true then f
  else
    let qualifying := t.children.filter (fun c => c.info.empty = false)
    let needToUnfold := qualifying.all (fun c => f c.info.contentLine)
    let linesToToggle := qualifying.map (fun c => c.info.contentLine)
    fun l => if l ∈ linesToToggle then (if needToUnfold then false else true) else f l

/-- The indent-unit count as the spec words it: the sum over the indent's
characters of the per-character contribution (tab ↦ tab width, other ↦ 1). -/
def specIndentUnits (tabSize : Nat) (indent : List Char) : Nat :=
  (indent.map (fun c => if c = '\t' then tabSize else 1)).sum

/-- A descriptor of `calculate` originates from some `emitLine` call on a
node of the forest, located by its path. -/
def EmittedFrom (env : Env) (roots : List LTree) (lastLine : Nat) (d : Desc) : Prop :=
  ∃ t p, getAt roots p = some t ∧ d ∈ emitLine env roots lastLine t p

/-! ### Concrete fixtures -/

/-- Document `["- a", "  - b", "    - c", "- d"]`: `b` is the only child of
`a`, `c` the only child of `b`, `d` a second root item. -/
def docA : List (List Char) :=
  ["- a".toList, "  - b".toList, "    - c".toList, "- d".toList]

def treeC : LTree := .node ⟨2, 6, "    ".toList, false⟩ []

def treeB : LTree := .node ⟨1, 4, "  ".toList, false⟩ [treeC]

def treeA : LTree := .node ⟨0, 2, [], false⟩ [treeB]

def treeD : LTree := .node ⟨3, 2, [], false⟩ []

def rlA : RootList := ⟨3, [treeA, treeD]⟩

/-- Fully visible pass over `docA` with item `a` (line 0) folded. -/
def env1 : Env :=
  ⟨docA, fun _ => 20, true, true, 1, [(0, 21)], none, 4, fun l => decide (l = 0)⟩

/-- Fully visible pass over `docA`, nothing folded, no zoom. -/
def env6 : Env :=
  ⟨docA, fun _ => 20, true, true, 1, [(0, 21)], none, 4, fun _ => false⟩

/-- Document `["- a", "  - b", "  - c", "- d"]`: `b` and `c` children of `a`. -/
def doc2 : List (List Char) :=
  ["- a".toList, "  - b".toList, "  - c".toList, "- d".toList]

def tree2B : LTree := .node ⟨1, 4, "  ".toList, false⟩ []

def tree2C : LTree := .node ⟨2, 4, "  ".toList, false⟩ []

def tree2A : LTree := .node ⟨0, 2, [], false⟩ [tree2B, tree2C]

def tree2D : LTree := .node ⟨3, 2, [], false⟩ []

def rl2 : RootList := ⟨3, [tree2A, tree2D]⟩

/-- Pass over `doc2` with full visibility and a zoom range covering only the
lines of `b` and `c` (positions `(1,0)` to `(2,5)`). -/
def env2 : Env :=
  ⟨doc2, fun _ => 20, true, true, 1, [(0, 19)], some (⟨1, 0⟩, ⟨2, 5⟩), 4, fun _ => false⟩

/-- Document `["- a", "  - b"]`. -/
def doc5 : List (List Char) := ["- a".toList, "  - b".toList]

def tree5B : LTree := .node ⟨1, 4, "  ".toList, false⟩ []

def tree5A : LTree := .node ⟨0, 2, [], false⟩ [tree5B]

def rl5 : RootList := ⟨1, [tree5A]⟩

/-- Pass over `doc5` whose visible range starts at offset 1 (scrolled view). -/
def env5 : Env :=
  ⟨doc5, fun _ => 20, true, true, 1, [(1, 9)], none, 4, fun _ => false⟩

/-- An empty item (whitespace-only own text) that still has a non-empty
child on line 1. -/
def emptyParent : LTree := .node ⟨0, 2, [], true⟩ [.node ⟨1, 4, "  ".toList, false⟩ []]

/-- A non-empty item with two non-empty children on lines 1 and 2. -/
def twoChildParent : LTree :=
  .node ⟨0, 2, [], false⟩ [.node ⟨1, 4, "  ".toList, false⟩ [], .node ⟨2, 4, "  ".toList, false⟩ []]

/-- A fold state in which only line 1 is folded. -/
def foldOnly1 : Nat → Bool := fun l => decide (l = 1)

/-- An environment only used for its tab size (4). -/
def env9 : Env := ⟨[], fun _ => 0, false, false, 0, [], none, 4, fun _ => false⟩

/-- An item indented by exactly one tab character. -/
def tabItem : LTree := .node ⟨0, 3, ['\t'], false⟩ []

/-! ### Path navigation lemmas -/

theorem getAt_nil (ts : List LTree) : getAt ts [] = none := by
  simp [getAt]

theorem getAt_singleton (ts : List LTree) (i : Nat) : getAt ts [i] = ts[i]? := by
  simp [getAt]

theorem getAt_cons (ts : List LTree) (i j : Nat) (p : List Nat) :
    getAt ts (i :: j :: p) =
      (match ts[i]? with
       | some t => getAt t.children (j :: p)
       | none => none) := by
  simp [getAt]

theorem getAt_append (ts : List LTree) (p : List Nat) (i : Nat) :
    getAt ts (p ++ [i]) = (childrenAt ts p)[i]? := by
  induction p generalizing ts with
  | nil => simp [getAt, childrenAt]
  | cons j q ih =>
    cases q with
    | nil =>
      simp only [List.cons_append, List.nil_append, childrenAt]
      rw [getAt_cons]
      cases ts[j]? with
      | none => simp [getAt]
      | some t => simp [getAt_singleton]
    | cons k r =>
      simp only [List.cons_append, childrenAt]
      rw [getAt_cons]
      cases ts[j]? with
      | none => simp [getAt_nil]
      | some t =>
        have := ih t.children
        simpa using this

theorem childrenAt_of_getAt {ts : List LTree} {p : List Nat} {t : LTree}
    (h : getAt ts p = some t) : childrenAt ts p = t.children := by
  induction p generalizing ts with
  | nil => rw [getAt_nil] at h; exact absurd h (by simp)
  | cons i q ih =>
    cases q with
    | nil =>
      rw [getAt_singleton] at h
      simp [childrenAt, h]
    | cons j r =>
      rw [getAt_cons] at h
      cases hts : ts[i]? with
      | none => rw [hts] at h; exact absurd h (by simp)
      | some u =>
        rw [hts] at h
        simp only [childrenAt, hts]
        exact ih h

/-! ### Geometry monotonicity lemmas -/

theorem offsetToLine_mono (doc : List (List Char)) {a b : Nat} (h : a ≤ b) :
    offsetToLine doc a ≤ offsetToLine doc b := by
  induction doc generalizing a b with
  | nil => simp [offsetToLine]
  | cons l rest ih =>
    simp only [offsetToLine]
    by_cases hb : b ≤ l.length
    · rw [if_pos hb, if_pos (h.trans hb)]
    · rw [if_neg hb]
      by_cases ha : a ≤ l.length
      · rw [if_pos ha]; exact Nat.zero_le _
      · rw [if_neg ha]
        have := ih (Nat.sub_le_sub_right h (l.length + 1))
        omega

theorem offsetToLine_zero (doc : List (List Char)) : offsetToLine doc 0 = 0 := by
  cases doc with
  | nil => rfl
  | cons l rest => simp [offsetToLine]

theorem lineTop_mono (h : Nat → Nat) {a b : Nat} (hab : a ≤ b) :
    lineTop h a ≤ lineTop h b := by
  induction b with
  | zero => rw [Nat.le_zero.1 hab]
  | succ n ih =>
    rcases Nat.lt_or_ge a (n + 1) with hlt | hge
    · calc lineTop h a ≤ lineTop h n := ih (Nat.lt_succ_iff.1 hlt)
        _ ≤ lineTop h (n + 1) := by simp [lineTop]
    · rw [Nat.le_antisymm hab hge]

theorem blockTopAt_mono (env : Env) {a b : Nat} (h : a ≤ b) :
    blockTopAt env a ≤ blockTopAt env b := by
  unfold blockTopAt
  exact_mod_cast lineTop_mono env.heights (offsetToLine_mono env.doc h)

theorem blockBottomAt_mono (env : Env) {a b : Nat} (h : a ≤ b) :
    blockBottomAt env a ≤ blockBottomAt env b := by
  unfold blockBottomAt
  exact_mod_cast lineTop_mono env.heights
    (Nat.succ_le_succ (offsetToLine_mono env.doc h))

theorem blockTopAt_zero_le (env : Env) (off : Nat) :
    blockTopAt env 0 ≤ blockTopAt env off := blockTopAt_mono env (Nat.zero_le off)

/-! ### Characterization of `emitLine` membership -/

theorem emitLine_spec {env : Env} {roots : List LTree} {lastLine : Nat}
    {t : LTree} {p : List Nat} {d : Desc}
    (h : d ∈ emitLine env roots lastLine t p) :
    d.item = t ∧ d.path = p
    ∧ d.fromOffset = posToOffset env.doc ⟨t.info.contentLine, t.info.indent.length⟩
    ∧ d.tillOffset = posToOffset env.doc
        ⟨match getNextSibling roots p with
         | some ns => ns.info.contentLine - 1
         | none => lastLine, 0⟩
    ∧ d.fromOffset ≤ clippedTo env ∧ clippedFrom env ≤ d.tillOffset
    ∧ env.foldState t.info.contentLine = false
    ∧ d.left = getIndentSize env t
    ∧ d.top = connectorTop env d.fromOffset
    ∧ d.top + d.heightPx = connectorBottom env d.tillOffset
    ∧ 0 < d.heightPx := by
  simp only [emitLine] at h
  split at h
  · exact absurd h (List.not_mem_nil d)
  · split at h
    · rename_i hguard hpush
      rw [List.mem_singleton] at h
      subst h
      refine ⟨rfl, rfl, rfl, rfl, by dsimp only; omega, by dsimp only; omega,
        hpush.2, rfl, rfl, by dsimp only; omega, hpush.1⟩
    · exact absurd h (List.not_mem_nil d)

/-! ### The traversal invariant: every descriptor comes from `emitLine` at a
valid path -/

theorem recursive_emitted (env : Env) (roots : List LTree) (lastLine : Nat) :
    ∀ (n : Nat) (t : LTree) (p : List Nat), sizeOf t ≤ n → getAt roots p = some t →
      ∀ d ∈ recursive env roots lastLine t p, EmittedFrom env roots lastLine d := by
  intro n
  induction n with
  | zero =>
    intro t p hsz
    exact absurd hsz (by cases t; simp)
  | succ n ih =>
    intro t p hsz hget d hd
    obtain ⟨info, children⟩ := t
    rw [recursive] at hd
    split at hd
    · exact absurd hd (List.not_mem_nil d)
    · rcases List.mem_append.1 hd with hmem | hmem
      · have hch : childrenAt roots p = children := by
          simpa using childrenAt_of_getAt hget
        have key : ∀ (cs : List LTree) (i : Nat), children.drop i = cs →
            ∀ d ∈ recChildren env roots lastLine cs p i,
              EmittedFrom env roots lastLine d := by
          intro cs
          induction cs with
          | nil =>
            intro i _ d hd
            rw [recChildren] at hd
            exact absurd hd (List.not_mem_nil d)
          | cons c rest ihc =>
            intro i hdrop d hd
            rw [recChildren] at hd
            rcases List.mem_append.1 hd with hd1 | hd2
            · split at hd1
              · exact absurd hd1 (List.not_mem_nil d)
              · have hcmem : c ∈ children :=
                  List.drop_subset i children (hdrop ▸ List.mem_cons_self c rest)
                have hcsz : sizeOf c ≤ n := by
                  have h1 := List.sizeOf_lt_of_mem hcmem
                  have h2 : sizeOf (LTree.node info children) ≤ n + 1 := hsz
                  simp only [LTree.node.sizeOf_spec] at h2
                  omega
                have hgetc : getAt roots (p ++ [i]) = some c := by
                  rw [getAt_append, hch]
                  have h0 := List.getElem?_drop children i 0
                  rw [hdrop] at h0
                  simpa using h0.symm
                exact ih c (p ++ [i]) hcsz hgetc d hd1
            · refine ihc (i + 1) ?_ d hd2
              rw [← List.drop_drop, hdrop]
              rfl
        exact key children 0 (by simp) d hmem
      · exact ⟨LTree.node info children, p, hget, hmem⟩

theorem topGo_emitted (env : Env) (roots : List LTree) (lastLine : Nat) :
    ∀ (cs : List LTree) (i : Nat), roots.drop i = cs →
      ∀ d ∈ topGo env roots lastLine cs i, EmittedFrom env roots lastLine d := by
  intro cs
  induction cs with
  | nil =>
    intro i _ d hd
    rw [topGo] at hd
    exact absurd hd (List.not_mem_nil d)
  | cons c rest ihc =>
    intro i hdrop d hd
    rw [topGo] at hd
    rcases List.mem_append.1 hd with hd1 | hd2
    · have hgetc : getAt roots [i] = some c := by
        rw [getAt_singleton]
        have h0 := List.getElem?_drop roots i 0
        rw [hdrop] at h0
        simpa using h0.symm
      exact recursive_emitted env roots lastLine (sizeOf c) c [i] (Nat.le_refl _) hgetc d hd1
    · refine ihc (i + 1) ?_ d hd2
      rw [← List.drop_drop, hdrop]
      rfl

theorem calcRoot_emitted (env : Env) (rl : RootList) :
    ∀ d ∈ calcRoot env rl, EmittedFrom env rl.children rl.endLine d :=
  topGo_emitted env rl.children rl.endLine rl.children 0 (by simp)

theorem calculate_emitted {env : Env} {lists : List RootList} {d : Desc}
    (h : d ∈ calculate env lists) :
    ∃ rl ∈ lists, EmittedFrom env rl.children rl.endLine d := by
  unfold calculate at h
  split at h
  · rw [List.mem_insertionSort] at h
    obtain ⟨rl, hrl, hd⟩ := List.mem_flatMap.1 h
    exact ⟨rl, hrl, calcRoot_emitted env rl d hd⟩
  · exact absurd h (List.not_mem_nil d)

/-! ### Unfolding lemmas for `toggleFolding` -/

theorem toggleFolding_apply_nonEmpty (t : LTree) (f : Nat → Bool)
    (hemp : ¬ t.info.empty = true) (x : Nat) :
    toggleFolding t f x =
      if x ∈ (t.children.filter fun c => c.info.empty = false).map
          (fun c => c.info.contentLine)
      then (if ((t.children.filter fun c => c.info.empty = false).all
              fun c => f c.info.contentLine) = true then false else true)
      else f x := by
  unfold toggleFolding
  rw [if_neg hemp]

theorem indentSpaces_eq_sum (tabSize : Nat) (l : List Char) :
    indentSpaces tabSize l = (l.map (fun c => if c = '\t' then tabSize else 1)).sum := by
  induction l with
  | nil => rfl
  | cons c rest ih => simp [indentSpaces, ih]

/-! ### Claim theorems -/

/-- C1, counterexample: in `env1` item `a` (path `[0]`, line 0) is folded,
`b` (path `[0, 0]`, line 1) is its child, yet the pass emits a descriptor
whose source item is `b` — a proper descendant of a folded item does get a
connector, contradicting the claim. -/
theorem connector_for_descendant_of_folded :
    env1.foldState treeA.info.contentLine = true
    ∧ getAt rlA.children [0] = some treeA
    ∧ getAt rlA.children [0, 0] = some treeB
    ∧ ∃ d ∈ calculate env1 [rlA], d.path = [0, 0] ∧ d.item.info.contentLine = 1 := by
  decide

/-- C1, amended: a folded item never produces a connector whose source item
is the folded item itself (every emitted descriptor's source item is
unfolded); proper descendants of a folded item are still traversed and may
produce connectors when individually unfolded. -/
theorem emitted_item_not_folded (env : Env) (lists : List RootList) (d : Desc)
    (h : d ∈ calculate env lists) :
    env.foldState d.item.info.contentLine = false := by
  obtain ⟨rl, _, t, p, _, hmem⟩ := calculate_emitted h
  obtain ⟨hitem, _, _, _, _, _, hfold, _⟩ := emitLine_spec hmem
  rw [hitem]
  exact hfold

/-- C1, witness: a concrete emitted descriptor, shown unfolded by the
theorem. -/
theorem emitted_item_not_folded_witness :
    ∃ d ∈ calculate env1 [rlA], env1.foldState d.item.info.contentLine = false := by
  obtain ⟨d, hd, _⟩ := (by decide : ∃ d ∈ calculate env1 [rlA], d.path = [0, 0])
  exact ⟨d, hd, emitted_item_not_folded env1 [rlA] d hd⟩

/-- C2, counterexample: in the scenario (document `["- a", "  - b", "  - c",
"- d"]`, full visibility, zoom range over the lines of `b` and `c`), a
connector IS produced for item `a` (content-start line 0, `fromOffset`
strictly below the zoom-clipped start): clipping does not eliminate `a`'s
interval, because the interval `[0, 10]` still overlaps the zoom range. -/
theorem connector_despite_zoom_cex :
    env2.zoomRange.isSome = true
    ∧ clippedFrom env2 = posToOffset env2.doc ⟨1, 0⟩
    ∧ ∃ d ∈ calculate env2 [rl2],
        d.item.info.contentLine = 0 ∧ d.fromOffset < clippedFrom env2 := by
  decide

/-- C2, amended: an item is skipped only when its document interval
`[fromOffset, tillOffset]` lies entirely outside the zoom-clipped visible
range; every emitted connector's interval intersects that range
(`tillOffset` at or after the clipped start and `fromOffset` at or before
the clipped end), but an item whose content start lies outside the zoom
range still receives a connector when the rest of its interval overlaps the
range — in the scenario item `a` does get one. -/
theorem emitted_interval_meets_clipped_range (env : Env) (lists : List RootList)
    (d : Desc) (h : d ∈ calculate env lists) :
    clippedFrom env ≤ d.tillOffset ∧ d.fromOffset ≤ clippedTo env := by
  obtain ⟨rl, _, t, p, _, hmem⟩ := calculate_emitted h
  obtain ⟨_, _, _, _, h5, h6, _⟩ := emitLine_spec hmem
  exact ⟨h6, h5⟩

/-- C2, witness: the scenario's connector for `a` satisfies the interval
intersection property. -/
theorem emitted_interval_meets_clipped_range_witness :
    ∃ d ∈ calculate env2 [rl2],
      clippedFrom env2 ≤ d.tillOffset ∧ d.fromOffset ≤ clippedTo env2 := by
  obtain ⟨d, hd, _⟩ := (by decide : ∃ d ∈ calculate env2 [rl2], d.path = [0])
  exact ⟨d, hd, emitted_interval_meets_clipped_range env2 [rl2] d hd⟩

/-- C5, counterexample: with the visible range starting at offset 1
(`clippedFrom env5 = 1 > 0`), the connector for `a` gets the overscan top
`-20`, which lies strictly above the pixel top of the visible range — the
emitted interval does extend above the range's top. -/
theorem connector_top_above_range_cex :
    0 < clippedFrom env5
    ∧ ∃ d ∈ calculate env5 [rl5], d.top < blockTopAt env5 (clippedFrom env5) := by
  decide

/-- C5, amended: an emitted connector's bottom pixel (top plus height)
never extends below the pixel bottom of the zoom-clipped visible range, and
its top pixel never lies above the range's pixel top except in the overscan
case, where the top is the fixed constant `-20` (used when the item's
content starts at or above a scrolled visible start). -/
theorem connector_bounded_or_overscan (env : Env) (lists : List RootList)
    (d : Desc) (h : d ∈ calculate env lists) :
    (d.top = -20 ∨ blockTopAt env (clippedFrom env) ≤ d.top)
    ∧ d.top + d.heightPx ≤ blockBottomAt env (clippedTo env) := by
  obtain ⟨rl, _, t, p, _, hmem⟩ := calculate_emitted h
  obtain ⟨_, _, _, _, h5, h6, _, _, htop, hbot, _⟩ := emitLine_spec hmem
  constructor
  · rw [htop]
    unfold connectorTop
    split
    · exact Or.inl rfl
    · rename_i hc
      right
      rcases Nat.eq_zero_or_pos (clippedFrom env) with h0 | h0
      · rw [h0]
        exact blockTopAt_zero_le env d.fromOffset
      · have hnle : ¬ d.fromOffset ≤ clippedFrom env := fun hle => hc ⟨h0, hle⟩
        exact blockTopAt_mono env (by omega)
  · rw [hbot]
    unfold connectorBottom
    split
    · exact blockBottomAt_mono env (Nat.sub_le _ _)
    · rename_i hc
      exact blockBottomAt_mono env (Nat.le_of_not_lt hc)

/-- C5, witness: the scenario's overscan connector satisfies the amended
bound. -/
theorem connector_bounded_or_overscan_witness :
    ∃ d ∈ calculate env5 [rl5],
      (d.top = -20 ∨ blockTopAt env5 (clippedFrom env5) ≤ d.top)
      ∧ d.top + d.heightPx ≤ blockBottomAt env5 (clippedTo env5) := by
  obtain ⟨d, hd, _⟩ := (by decide : ∃ d ∈ calculate env5 [rl5], d.path = [0])
  exact ⟨d, hd, connector_bounded_or_overscan env5 [rl5] d hd⟩

/-- C6, counterexample: in `env6` (document `["- a", "  - b", "    - c",
"- d"]`, everything visible and unfolded), item `b` (path `[0, 0]`) has no
following sibling — it is the last child of `a` — yet its connector's
`tillOffset` is NOT the end of the parsed range (`posToOffset ⟨3, 0⟩ = 18`):
the code walks up to `a`'s sibling `d` and uses the line before `d`'s
content start (offset 10). -/
theorem tillOffset_not_parse_range_end_cex :
    ∃ d ∈ calculate env6 [rlA],
      d.path = [0, 0]
      ∧ (directNextSibling rlA.children d.path).isNone = true
      ∧ d.tillOffset ≠ posToOffset env6.doc ⟨rlA.endLine, 0⟩ := by
  decide

/-- C6, amended: for every emitted connector, `tillOffset` is computed from
the ancestor walk `getNextSibling`: if the item, or the nearest ancestor
that has one, has a following sibling, `tillOffset` is the offset of the
line one before that sibling's content-start line; only when the walk
reaches the root list without finding a sibling is it the offset of the end
of the parsed range. -/
theorem tillOffset_from_sibling_walk (env : Env) (lists : List RootList)
    (d : Desc) (h : d ∈ calculate env lists) :
    ∃ rl ∈ lists, getAt rl.children d.path = some d.item
      ∧ d.tillOffset = posToOffset env.doc
          ⟨match getNextSibling rl.children d.path with
           | some ns => ns.info.contentLine - 1
           | none => rl.endLine, 0⟩ := by
  obtain ⟨rl, hrl, t, p, hget, hmem⟩ := calculate_emitted h
  obtain ⟨hitem, hpath, _, htill, _⟩ := emitLine_spec hmem
  refine ⟨rl, hrl, ?_, ?_⟩
  · rw [hitem, hpath]
    exact hget
  · rw [hpath]
    exact htill

/-- C6, witness: the walk-based `tillOffset` property at the concrete
connector of `b`. -/
theorem tillOffset_from_sibling_walk_witness :
    ∃ d ∈ calculate env6 [rlA], ∃ rl ∈ [rlA],
      getAt rl.children d.path = some d.item
      ∧ d.tillOffset = posToOffset env6.doc
          ⟨match getNextSibling rl.children d.path with
           | some ns => ns.info.contentLine - 1
           | none => rl.endLine, 0⟩ := by
  obtain ⟨d, hd, _⟩ := (by decide : ∃ d ∈ calculate env6 [rlA], d.path = [0, 0])
  exact ⟨d, hd, tillOffset_from_sibling_walk env6 [rlA] d hd⟩

/-- C7: if the feature is disabled, or the theme is not the supported
default theme, or there is no visible viewport (no viewport line blocks or
no visible ranges), the recomputation yields the empty descriptor set
(rendering then clears all previously rendered connectors); the function is
total, so these conditions never produce a failure. -/
theorem calculate_disabled_empty (env : Env) (lists : List RootList)
    (h : env.listLines = false ∨ env.isDefaultTheme = false
      ∨ env.viewportLineBlocksLen = 0 ∨ env.visibleRanges.length = 0) :
    calculate env lists = [] := by
  unfold calculate
  rw [if_neg]
  rintro ⟨h1, h2, h3, h4⟩
  rcases h with h | h | h | h
  · rw [h] at h1
    exact Bool.noConfusion h1
  · rw [h] at h2
    exact Bool.noConfusion h2
  · omega
  · omega

/-- C7, witness: a concrete disabled pass yields the empty set. -/
theorem calculate_disabled_empty_witness :
    env9.listLines = false ∧ calculate env9 [rlA] = [] :=
  ⟨rfl, calculate_disabled_empty env9 [rlA] (Or.inl rfl)⟩

/-- C8: the descriptor sequence of every recomputation pass is sorted by
`top` ascending with ties broken by `left` ascending. -/
theorem calculate_sorted (env : Env) (lists : List RootList) :
    List.Sorted descLe (calculate env lists) := by
  unfold calculate
  split
  · exact List.sorted_insertionSort descLe _
  · exact List.sorted_nil

/-- C9: the connector's horizontal offset is the item's indent measured in
character units (a tab counts as the configured tab width, any other
character as 1) multiplied by the fixed per-character pixel width; in
particular with tab width 4 and an indent of exactly one tab the result is
4 units times that width. -/
theorem getIndentSize_spec :
    (∀ (env : Env) (t : LTree),
        getIndentSize env t
          = (specIndentUnits env.tabSize t.info.indent : ℚ) * spaceSize)
    ∧ getIndentSize env9 tabItem = (4 : ℚ) * spaceSize := by
  constructor
  · intro env t
    unfold getIndentSize specIndentUnits
    rw [indentSpaces_eq_sum]
  · have h4 : indentSpaces env9.tabSize tabItem.info.indent = 4 := rfl
    unfold getIndentSize
    rw [h4]
    norm_num

/-- C3, counterexample: dispatching toggle-folding on an empty item whose
single non-empty child (line 1) is folded leaves the child folded, although
the claim ("if all of them are currently folded then every one of them is
unfolded") requires it to be unfolded: the early `isEmpty` return wins. -/
theorem toggle_on_empty_parent_cex :
    emptyParent.info.empty = true
    ∧ ((emptyParent.children.filter fun c => c.info.empty = false).map
        fun c => c.info.contentLine) = [1]
    ∧ ((emptyParent.children.filter fun c => c.info.empty = false).all
        fun c => (fun _ => true : Nat → Bool) c.info.contentLine) = true
    ∧ toggleFolding emptyParent (fun _ => true) 1 = true := by
  decide

/-- C3, amended: for every NON-empty item on which toggle-folding is
dispatched (an empty item is an immediate no-op): at the content lines of
the direct non-empty children, the new fold state is `false` (unfolded) if
all of them were folded and `true` (folded) otherwise — in particular every
currently-unfolded one is folded; the fold state at every other line, hence
for empty children on their own lines and for everything else, is
unchanged, so an item with no non-empty children changes nothing. -/
theorem toggleFolding_nonEmpty_spec (t : LTree) (f : Nat → Bool)
    (h : t.info.empty = false) :
    (∀ l ∈ (t.children.filter fun c => c.info.empty = false).map
        (fun c => c.info.contentLine),
      toggleFolding t f l =
        if ((t.children.filter fun c => c.info.empty = false).all
            fun c => f c.info.contentLine) = true then false else true)
    ∧ ∀ l, l ∉ (t.children.filter fun c => c.info.empty = false).map
        (fun c => c.info.contentLine) → toggleFolding t f l = f l := by
  have hemp : ¬ t.info.empty = true := by
    rw [h]
    exact Bool.noConfusion
  constructor
  · intro l hl
    rw [toggleFolding_apply_nonEmpty t f hemp l, if_pos hl]
  · intro l hl
    rw [toggleFolding_apply_nonEmpty t f hemp l, if_neg hl]

/-- C3, witness: on a non-empty item with two non-empty unfolded children,
the toggle folds child line 1. -/
theorem toggleFolding_nonEmpty_spec_witness :
    twoChildParent.info.empty = false
    ∧ toggleFolding twoChildParent (fun _ => false) 1 = true := by
  refine ⟨rfl, ?_⟩
  have h := (toggleFolding_nonEmpty_spec twoChildParent (fun _ => false) rfl).1 1 (by decide)
  rw [h]
  decide

/-- C4, counterexample: with mixed initial states (child line 1 folded,
child line 2 unfolded), applying toggle-folding twice leaves line 1
unfolded, not folded as it started — double application is not the
identity. -/
theorem toggle_twice_mixed_cex :
    foldOnly1 1 = true ∧ foldOnly1 2 = false
    ∧ toggleFolding twoChildParent (toggleFolding twoChildParent foldOnly1) 1
        ≠ foldOnly1 1 := by
  decide

/-- C4, amended: applying toggle-folding twice with no intervening change
restores every fold state provided the direct non-empty children initially
share the same fold state (all folded or all unfolded); with mixed initial
states the second application leaves all of them unfolded instead. -/
theorem toggleFolding_twice_of_uniform (t : LTree) (f : Nat → Bool)
    (h : ∀ c ∈ t.children.filter (fun c => c.info.empty = false),
         ∀ c' ∈ t.children.filter (fun c => c.info.empty = false),
           f c.info.contentLine = f c'.info.contentLine) :
    ∀ l, toggleFolding t (toggleFolding t f) l = f l := by
  intro l
  by_cases hemp : t.info.empty = true
  · simp only [toggleFolding, if_pos hemp]
  · by_cases hl : l ∈ (t.children.filter fun c => c.info.empty = false).map
        (fun c => c.info.contentLine)
    · obtain ⟨c0, hc0q, hc0l⟩ := List.mem_map.1 hl
      cases hall : ((t.children.filter fun c => c.info.empty = false).all
          fun c => f c.info.contentLine) with
      | true =>
        have hf1 : ∀ x ∈ (t.children.filter fun c => c.info.empty = false).map
            (fun c => c.info.contentLine), toggleFolding t f x = false := by
          intro x hx
          rw [toggleFolding_apply_nonEmpty t f hemp x, if_pos hx, hall]
          simp
        have hall2 : ((t.children.filter fun c => c.info.empty = false).all
            fun c => toggleFolding t f c.info.contentLine) = false := by
          refine List.all_eq_false.2 ⟨c0, hc0q, ?_⟩
          rw [hf1 c0.info.contentLine (List.mem_map_of_mem _ hc0q)]
          simp
        rw [toggleFolding_apply_nonEmpty t (toggleFolding t f) hemp l, if_pos hl, hall2]
        simp only [Bool.false_eq_true, if_false]
        rw [← hc0l]
        exact (List.all_eq_true.1 hall c0 hc0q).symm
      | false =>
        have hf1 : ∀ x ∈ (t.children.filter fun c => c.info.empty = false).map
            (fun c => c.info.contentLine), toggleFolding t f x = true := by
          intro x hx
          rw [toggleFolding_apply_nonEmpty t f hemp x, if_pos hx, hall]
          simp
        have hall2 : ((t.children.filter fun c => c.info.empty = false).all
            fun c => toggleFolding t f c.info.contentLine) = true :=
          List.all_eq_true.2
            (fun c hc => hf1 c.info.contentLine (List.mem_map_of_mem _ hc))
        rw [toggleFolding_apply_nonEmpty t (toggleFolding t f) hemp l, if_pos hl, hall2]
        simp only [if_true]
        obtain ⟨c1, hc1q, hc1⟩ := List.all_eq_false.1 hall
        rw [← hc0l, h c0 hc0q c1 hc1q]
        simp only [Bool.not_eq_true] at hc1
        rw [hc1]
    · rw [toggleFolding_apply_nonEmpty t (toggleFolding t f) hemp l, if_neg hl,
        toggleFolding_apply_nonEmpty t f hemp l, if_neg hl]

/-- C4, witness: with uniform initial states (all unfolded), the double
application restores child line 1. -/
theorem toggleFolding_twice_of_uniform_witness :
    toggleFolding twoChildParent (toggleFolding twoChildParent (fun _ => false)) 1
      = false :=
  toggleFolding_twice_of_uniform twoChildParent (fun _ => false) (by decide) 1

/-- C10: when the item a toggle-folding click resolves to is itself empty,
the operation returns immediately and changes no fold state at any line,
even when the item has non-empty children. -/
theorem toggleFolding_empty_noop (t : LTree) (f : Nat → Bool)
    (h : t.info.empty = true) : ∀ l, toggleFolding t f l = f l := by
  intro l
  unfold toggleFolding
  rw [if_pos h]

/-- C10, witness: the no-op on a concrete empty item that does have a
non-empty child. -/
theorem toggleFolding_empty_noop_witness :
    emptyParent.info.empty = true
    ∧ (∃ c ∈ emptyParent.children, c.info.empty = false)
    ∧ toggleFolding emptyParent (fun _ => true) 1 = true :=
  ⟨rfl, by decide, toggleFolding_empty_noop emptyParent (fun _ => true) rfl 1⟩

end OutlinerLines
